import Mathlib

/-!
Shallow embedding of the `api-rate-limiter` crate.

* `CacheEntry`, `InMemoryCache.get/set/incr` embed `src/cache/in_memory.rs`:
  the `DashMap<String, CacheEntry>` is modelled as a function
  `String → Option CacheEntry`, `Instant` and `Duration` as `Nat`, and each
  operation takes the clock reading `now` it performs internally as an
  explicit parameter.  `u32` counters are `Nat` with an explicit
  `% 4294967296` where the source performs `u32` addition.
* `Backend` and `RateLimiter.allow` embed the `CacheBackend` trait and
  `RateLimiter::allow` of `src/limiter.rs`; each operation returns its value
  together with the updated backend state.  A single `allow` call uses one
  clock reading for all of its store operations.
* `TokenBucket` is modelled from the spec (its source is not in the crate's
  `src/`, only its integration test is).
-/

/-- Embeds `CacheEntry` of `src/cache/in_memory.rs`: a counter value and an
absolute expiry instant. -/
structure CacheEntry where
  value : Nat
  expires_at : Nat
  deriving DecidableEq, Repr

/-- The `DashMap<String, CacheEntry>` of `InMemoryCache`, as a map from keys
to optional entries. -/
def Store : Type := String → Option CacheEntry

/-- The empty store produced by `InMemoryCache::new`. -/
def emptyStore : Store := fun _ => none

/-- Point update of a store at one key. -/
def updateStore (s : Store) (key : String) (e : Option CacheEntry) : Store :=
  fun k => if k = key then e else s k

/-- The `u32` modulus: values wrap at `2^32` under unchecked addition. -/
def u32Mod : Nat := 4294967296

namespace InMemoryCache

/-- Embeds `InMemoryCache::get`: returns the value if the entry exists and
`expires_at > now`; an expired entry is removed and `none` returned; an
absent key returns `none`.  The return type has no error alternative, as in
the source (`Option<u32>`). -/
def get (now : Nat) (s : Store) (key : String) : Option Nat × Store :=
  match s key with
  | some entry =>
      if now < entry.expires_at then
        (some entry.value, s)
      else
        (none, updateStore s key none)
  | none => (none, s)

/-- Embeds `InMemoryCache::set`: unconditionally writes the entry with
`expires_at = now + ttl`, always returning `Ok(())`. -/
def set (now : Nat) (s : Store) (key : String) (value : Nat) (ttl : Nat) :
    Except String Unit × Store :=
  (Except.ok (), updateStore s key (some ⟨value, now + ttl⟩))

/-- Embeds `InMemoryCache::incr`: an expired entry has its value reset to
`amount` (expiry left untouched); a live entry has its value incremented by
unchecked `u32` addition; an absent key gets a fresh entry stamped
`expires_at = now` (to be corrected by a follow-up `set`). -/
def incr (now : Nat) (s : Store) (key : String) (amount : Nat) :
    Except String Nat × Store :=
  match s key with
  | some entry =>
      if entry.expires_at ≤ now then
        (Except.ok amount, updateStore s key (some ⟨amount, entry.expires_at⟩))
      else
        (Except.ok ((entry.value + amount) % u32Mod),
         updateStore s key (some ⟨(entry.value + amount) % u32Mod, entry.expires_at⟩))
  | none =>
      (Except.ok amount, updateStore s key (some ⟨amount, now⟩))

end InMemoryCache

/-- Embeds the `CacheBackend` trait of `src/limiter.rs`: a state type with
`get`, `set` and `incr`, each returning its value and the updated state. -/
structure Backend (σ : Type) where
  get : σ → String → Option Nat × σ
  set : σ → String → Nat → Nat → Except String Unit × σ
  incr : σ → String → Nat → Except String Nat × σ

/-- The `InMemoryCache` as a `Backend`, at a fixed clock reading. -/
def inMemoryBackend (now : Nat) : Backend Store :=
  { get := InMemoryCache.get now
    set := fun s key value ttl => InMemoryCache.set now s key value ttl
    incr := InMemoryCache.incr now }

/-- Embeds the key derivation `format!("rate_limit:{}", ip)` of
`RateLimiter::allow`. -/
def rlKey (ip : String) : String := "rate_limit:" ++ ip

/-- Embeds `RateLimiter::allow` of `src/limiter.rs`, generic over the
backend: read the current count (defaulting to 0), deny if it has reached
`limit`; otherwise `incr` by 1, deny on backend error, and on a new count of
1 establish the TTL with a best-effort `set` whose result is ignored. -/
def RateLimiter.allow {σ : Type} (B : Backend σ) (limit ttl : Nat)
    (s : σ) (ip : String) : Bool × σ :=
  let key := rlKey ip
  let g := B.get s key
  let current_count := g.fst.getD 0
  if current_count < limit then
    match B.incr g.snd key 1 with
    | (Except.ok new_count, s2) =>
        if new_count = 1 then
          (true, (B.set s2 key new_count ttl).snd)
        else
          (true, s2)
    | (Except.error _, s2) => (false, s2)
  else
    (false, g.snd)

/-- `RateLimiter::allow` over the in-memory cache, at clock reading `now`. -/
def allowInMem (limit ttl now : Nat) (s : Store) (ip : String) : Bool × Store :=
  RateLimiter.allow (inMemoryBackend now) limit ttl s ip

/-- A sequence of `allow` calls on the in-memory cache, one per clock
reading in `ts`, returning the list of decisions and the final store. -/
def allowRun (limit ttl : Nat) (ip : String) : Store → List Nat → List Bool × Store
  | s, [] => ([], s)
  | s, t :: ts =>
      let r := allowInMem limit ttl t s ip
      let rest := allowRun limit ttl ip r.snd ts
      (r.fst :: rest.fst, rest.snd)

/-- The decision `allow` makes as a function of the entry stored under the
identity's key: with no live entry the request is admitted exactly when
`0 < limit` (the fresh `incr` never fails in the in-memory cache), and with
a live entry exactly when its value is below `limit`. -/
def allowDecision (limit now : Nat) (e : Option CacheEntry) : Bool :=
  match e with
  | none => decide (0 < limit)
  | some entry =>
      if now < entry.expires_at then decide (entry.value < limit)
      else decide (0 < limit)

/-- Modelled from the spec: the `TokenBucketLimiter` state of §3/§4.3,
whose source file is not under `src/` (only its integration test
`src/src/tests/integration_test.rs` is): `capacity`, current `tokens`
(integer count), `lastRefill` timestamp and `refillPeriod`. -/
structure TokenBucket where
  capacity : Nat
  tokens : Nat
  lastRefill : Nat
  refillPeriod : Nat
  deriving DecidableEq, Repr

namespace TokenBucket

/-- Modelled from the spec: construction of §3 — a fresh bucket starts with
`tokens = capacity` and `lastRefill` at the construction instant. -/
def new (capacity refillPeriod now : Nat) : TokenBucket :=
  { capacity := capacity, tokens := capacity, lastRefill := now
    refillPeriod := refillPeriod }

/-- Modelled from the spec: `allow()` of §4.3 — accrue
`(elapsed / refillPeriod) * capacity` tokens (integer-truncating, per the
§9 implementation choice), cap at `capacity`, reset `lastRefill`
unconditionally, then consume one token when available. -/
def allow (b : TokenBucket) (now : Nat) : Bool × TokenBucket :=
  let elapsed := now - b.lastRefill
  let accrued := elapsed * b.capacity / b.refillPeriod
  let tokens := min b.capacity (b.tokens + accrued)
  if 0 < tokens then
    (true, { b with tokens := tokens - 1, lastRefill := now })
  else
    (false, { b with tokens := tokens, lastRefill := now })

/-- `n` successive `allow()` calls on a token bucket, all at instant `t`
(no time elapsing between calls). -/
def allowRun (b : TokenBucket) (t : Nat) : Nat → List Bool × TokenBucket
  | 0 => ([], b)
  | n + 1 =>
      let r := b.allow t
      let rest := allowRun r.snd t n
      (r.fst :: rest.fst, rest.snd)

end TokenBucket

theorem updateStore_self (s : Store) (key : String) (e : Option CacheEntry) :
    updateStore s key e key = e := by
  simp [updateStore]

theorem updateStore_other (s : Store) (key : String) (e : Option CacheEntry)
    (k : String) (h : k ≠ key) : updateStore s key e k = s k := by
  simp [updateStore, h]

theorem updateStore_collapse (s : Store) (key : String)
    (a b : Option CacheEntry) :
    updateStore (updateStore s key a) key b = updateStore s key b := by
  funext k
  by_cases h : k = key <;> simp [updateStore, h]

theorem allowInMem_absent (limit ttl now : Nat) (s : Store) (ip : String)
    (h : s (rlKey ip) = none) (hlim : 0 < limit) :
    allowInMem limit ttl now s ip =
      (true, updateStore s (rlKey ip) (some ⟨1, now + ttl⟩)) := by
  simp only [allowInMem, RateLimiter.allow, inMemoryBackend,
    InMemoryCache.get, InMemoryCache.incr, InMemoryCache.set, h,
    Option.getD_none, hlim, if_pos, updateStore_self, updateStore_collapse]

theorem allowInMem_live_incr (limit ttl now : Nat) (s : Store) (ip : String)
    (v E : Nat) (h : s (rlKey ip) = some ⟨v, E⟩) (hlive : now < E)
    (h1 : 1 ≤ v) (hv : v < limit) (hov : v + 1 < u32Mod) :
    allowInMem limit ttl now s ip =
      (true, updateStore s (rlKey ip) (some ⟨v + 1, E⟩)) := by
  have hnexp : ¬ E ≤ now := Nat.not_le.mpr hlive
  have hmod : (v + 1) % u32Mod = v + 1 := Nat.mod_eq_of_lt hov
  have hne1 : ¬ v + 1 = 1 := by omega
  simp only [allowInMem, RateLimiter.allow, inMemoryBackend,
    InMemoryCache.get, InMemoryCache.incr, h, hlive, if_pos,
    Option.getD_some, hv, hnexp, if_neg, hmod, hne1, if_false]

theorem allowInMem_live_deny (limit ttl now : Nat) (s : Store) (ip : String)
    (v E : Nat) (h : s (rlKey ip) = some ⟨v, E⟩) (hlive : now < E)
    (hge : limit ≤ v) :
    allowInMem limit ttl now s ip = (false, s) := by
  have hnv : ¬ v < limit := Nat.not_lt.mpr hge
  simp only [allowInMem, RateLimiter.allow, inMemoryBackend,
    InMemoryCache.get, h, hlive, if_pos, Option.getD_some, hnv, if_false]

theorem allowInMem_expired (limit ttl now : Nat) (s : Store) (ip : String)
    (v E : Nat) (h : s (rlKey ip) = some ⟨v, E⟩) (hexp : E ≤ now)
    (hlim : 0 < limit) :
    allowInMem limit ttl now s ip =
      (true, updateStore s (rlKey ip) (some ⟨1, now + ttl⟩)) := by
  have hnlive : ¬ now < E := Nat.not_lt.mpr hexp
  simp [allowInMem, RateLimiter.allow, inMemoryBackend,
    InMemoryCache.get, InMemoryCache.incr, InMemoryCache.set, h, hnlive,
    hlim, updateStore_self, updateStore_collapse]

theorem allowInMem_frame (limit ttl now : Nat) (s : Store) (ip : String)
    (k : String) (hk : k ≠ rlKey ip) :
    (allowInMem limit ttl now s ip).snd k = s k := by
  rcases hs : s (rlKey ip) with _ | ⟨v, E⟩
  · by_cases hl : 0 < limit
    · rw [allowInMem_absent limit ttl now s ip hs hl]
      exact updateStore_other _ _ _ _ hk
    · have hl0 : limit = 0 := by omega
      subst hl0
      simp [allowInMem, RateLimiter.allow, inMemoryBackend,
        InMemoryCache.get, hs]
  · by_cases hlive : now < E
    · by_cases hv : v < limit
      · have hnexp : ¬ E ≤ now := Nat.not_le.mpr hlive
        simp only [allowInMem, RateLimiter.allow, inMemoryBackend,
          InMemoryCache.get, InMemoryCache.incr, InMemoryCache.set, hs,
          hlive, if_pos, Option.getD_some, hv, hnexp, if_neg, if_false]
        split <;> simp [updateStore, hk]
      · rw [allowInMem_live_deny limit ttl now s ip v E hs hlive
          (Nat.not_lt.mp hv)]
    · by_cases hl : 0 < limit
      · rw [allowInMem_expired limit ttl now s ip v E hs
          (Nat.not_lt.mp hlive) hl]
        exact updateStore_other _ _ _ _ hk
      · have hl0 : limit = 0 := by omega
        subst hl0
        simp [allowInMem, RateLimiter.allow, inMemoryBackend,
          InMemoryCache.get, hs, hlive, updateStore, hk]

theorem allowInMem_fst_eval (limit ttl now : Nat) (s : Store) (ip : String) :
    (allowInMem limit ttl now s ip).fst = allowDecision limit now (s (rlKey ip)) := by
  rcases hs : s (rlKey ip) with _ | ⟨v, E⟩
  · by_cases hl : 0 < limit
    · rw [allowInMem_absent limit ttl now s ip hs hl]
      simp [allowDecision, hl]
    · have hl0 : limit = 0 := by omega
      subst hl0
      simp [allowInMem, RateLimiter.allow, inMemoryBackend,
        InMemoryCache.get, hs, allowDecision]
  · by_cases hlive : now < E
    · by_cases hv : v < limit
      · have hnexp : ¬ E ≤ now := Nat.not_le.mpr hlive
        simp only [allowInMem, RateLimiter.allow, inMemoryBackend,
          InMemoryCache.get, InMemoryCache.incr, InMemoryCache.set, hs,
          hlive, if_pos, Option.getD_some, hv, hnexp, if_neg, if_false, allowDecision]
        split <;> simp [hv]
      · rw [allowInMem_live_deny limit ttl now s ip v E hs hlive
          (Nat.not_lt.mp hv)]
        simp [allowDecision, hlive, hv]
    · by_cases hl : 0 < limit
      · rw [allowInMem_expired limit ttl now s ip v E hs
          (Nat.not_lt.mp hlive) hl]
        simp [allowDecision, hlive, hl]
      · have hl0 : limit = 0 := by omega
        subst hl0
        simp [allowInMem, RateLimiter.allow, inMemoryBackend,
          InMemoryCache.get, hs, hlive, allowDecision]

theorem append_left_cancel_str (p x y : String) (h : p ++ x = p ++ y) :
    x = y := by
  have hd : (p ++ x).data = (p ++ y).data := congrArg String.data h
  rw [String.data_append, String.data_append] at hd
  exact String.ext (List.append_cancel_left hd)

/-- C7: `get(key)` returns `some count` exactly when a live (unexpired)
entry exists for `key`; otherwise it returns `none`, and an expired entry is
removed from the store before `none` is returned (a live or absent entry is
left as is).  The return type `Option Nat × Store` has no error
alternative, matching the source's `Option<u32>`. -/
theorem get_spec (s : Store) (now : Nat) (key : String) :
    (InMemoryCache.get now s key).fst
        = (s key).bind (fun e => if now < e.expires_at then some e.value else none)
    ∧ (InMemoryCache.get now s key).snd key
        = (s key).bind (fun e => if now < e.expires_at then some e else none) := by
  rcases hs : s key with _ | e
  · simp [InMemoryCache.get, hs]
  · by_cases hlive : now < e.expires_at <;>
      simp [InMemoryCache.get, hs, hlive, updateStore_self]

/-- C8: when `incr(key, amount)` finds no live entry (absent or expired),
it returns `Ok(amount)` and leaves an entry of value `amount` under `key`;
for an absent key the fresh entry is stamped `expires_at = now`. -/
theorem incr_no_live_entry (s : Store) (now : Nat) (key : String)
    (amount : Nat)
    (h : s key = none ∨ ∃ e, s key = some e ∧ e.expires_at ≤ now) :
    (InMemoryCache.incr now s key amount).fst = Except.ok amount
    ∧ ∃ e', (InMemoryCache.incr now s key amount).snd key = some e'
        ∧ e'.value = amount ∧ (s key = none → e'.expires_at = now) := by
  rcases h with h | ⟨e, he, hexp⟩
  · exact ⟨by simp [InMemoryCache.incr, h],
      ⟨⟨amount, now⟩, by simp [InMemoryCache.incr, h, updateStore_self],
        rfl, fun _ => rfl⟩⟩
  · refine ⟨by simp [InMemoryCache.incr, he, hexp],
      ⟨⟨amount, e.expires_at⟩,
        by simp [InMemoryCache.incr, he, hexp, updateStore_self], rfl, ?_⟩⟩
    intro hn
    rw [he] at hn
    cases hn

theorem incr_no_live_entry_witness :
    (emptyStore (rlKey "w") = none
      ∨ ∃ e, emptyStore (rlKey "w") = some e ∧ e.expires_at ≤ 4)
    ∧ (InMemoryCache.incr 4 emptyStore (rlKey "w") 2).fst = Except.ok 2 :=
  ⟨Or.inl rfl, (incr_no_live_entry emptyStore 4 (rlKey "w") 2 (Or.inl rfl)).1⟩

/-- C9: on a live entry of value `v`, `incr(key, amount)` performs the
unchecked `u32` addition and returns `Ok((v + amount) % 2^32)` — there is
no guard, saturation or error path — and whenever `v + amount` fits in a
`u32` the returned value is exactly `v + amount`. -/
theorem incr_live_entry (s : Store) (now : Nat) (key : String)
    (amount : Nat) (e : CacheEntry) (h : s key = some e)
    (hlive : now < e.expires_at) :
    (InMemoryCache.incr now s key amount).fst
        = Except.ok ((e.value + amount) % u32Mod)
    ∧ (InMemoryCache.incr now s key amount).snd key
        = some ⟨(e.value + amount) % u32Mod, e.expires_at⟩
    ∧ (e.value + amount < u32Mod →
        (InMemoryCache.incr now s key amount).fst
          = Except.ok (e.value + amount)) := by
  have hnexp : ¬ e.expires_at ≤ now := Nat.not_le.mpr hlive
  refine ⟨by simp [InMemoryCache.incr, h, hnexp],
    by simp [InMemoryCache.incr, h, hnexp, updateStore_self], ?_⟩
  intro hlt
  simp [InMemoryCache.incr, h, hnexp, Nat.mod_eq_of_lt hlt]

def s9w : Store := updateStore emptyStore "k" (some ⟨5, 10⟩)

theorem incr_live_entry_witness :
    s9w "k" = some ⟨5, 10⟩ ∧ (3 : Nat) < 10
    ∧ (InMemoryCache.incr 3 s9w "k" 2).fst = Except.ok 7 := by
  refine ⟨rfl, by decide, ?_⟩
  exact (incr_live_entry s9w 3 "k" 2 ⟨5, 10⟩ rfl (by decide)).2.2 (by decide)

/-- C3: a limiter constructed with `limit = 0` denies every request, for
every identity, clock reading and store state. -/
theorem allow_limit_zero (ttl now : Nat) (s : Store) (ip : String) :
    (allowInMem 0 ttl now s ip).fst = false := by
  rw [allowInMem_fst_eval]
  rcases s (rlKey ip) with _ | e <;> simp [allowDecision]

/-- C2: when the stored entry for an identity has expired and `limit ≥ 1`,
the next `allow` call returns `true` and the stored count for that identity
is reset to 1 (with a fresh window expiry `now + ttl`), not accumulated. -/
theorem allow_after_expiry (limit ttl now : Nat) (s : Store) (ip : String)
    (e : CacheEntry) (h : s (rlKey ip) = some e) (hexp : e.expires_at ≤ now)
    (hlim : 1 ≤ limit) :
    (allowInMem limit ttl now s ip).fst = true
    ∧ (allowInMem limit ttl now s ip).snd (rlKey ip)
        = some ⟨1, now + ttl⟩ := by
  have hstep := allowInMem_expired limit ttl now s ip e.value e.expires_at
    (by rw [h]) hexp hlim
  rw [hstep]
  exact ⟨rfl, updateStore_self _ _ _⟩

def s2w : Store := updateStore emptyStore (rlKey "a") (some ⟨7, 3⟩)

theorem allow_after_expiry_witness :
    s2w (rlKey "a") = some ⟨7, 3⟩ ∧ (3 : Nat) ≤ 5 ∧ (1 : Nat) ≤ 2
    ∧ (allowInMem 2 10 5 s2w "a").fst = true
    ∧ (allowInMem 2 10 5 s2w "a").snd (rlKey "a") = some ⟨1, 15⟩ := by
  have h := allow_after_expiry 2 10 5 s2w "a" ⟨7, 3⟩ rfl (by decide) (by decide)
  exact ⟨rfl, by decide, by decide, h.1, h.2⟩

def s5c : Store := updateStore emptyStore (rlKey "a") (some ⟨3, 1⟩)

/-- C5 is false as stated: with `limit = 0` and an expired entry stored
under the identity's key, `allow` reads a current count of 0 ≥ limit and
returns `false`, yet the store is mutated — `get`'s lazy expiry removes the
expired entry for that key. -/
theorem allow_deny_frame_cex :
    (0 : Nat) ≤ (InMemoryCache.get 5 s5c (rlKey "a")).fst.getD 0
    ∧ (allowInMem 0 9 5 s5c "a").fst = false
    ∧ (allowInMem 0 9 5 s5c "a").snd (rlKey "a") ≠ s5c (rlKey "a") := by
  decide

/-- C5 (amended): whenever `allow(identity)` reads a current count ≥
`limit`, it returns `false`; entries under every other key are unchanged,
and the identity's own entry is either unchanged or — only when it was
already expired — removed by `get`'s lazy expiry. -/
theorem allow_deny_frame (limit ttl now : Nat) (s : Store) (ip : String)
    (hge : limit ≤ (InMemoryCache.get now s (rlKey ip)).fst.getD 0) :
    (allowInMem limit ttl now s ip).fst = false
    ∧ (∀ k, k ≠ rlKey ip → (allowInMem limit ttl now s ip).snd k = s k)
    ∧ ((allowInMem limit ttl now s ip).snd (rlKey ip) = s (rlKey ip)
       ∨ ((allowInMem limit ttl now s ip).snd (rlKey ip) = none
          ∧ ∃ e, s (rlKey ip) = some e ∧ e.expires_at ≤ now)) := by
  rcases hs : s (rlKey ip) with _ | ⟨v, E⟩
  · have hl0 : limit = 0 := by
      have hfst : (InMemoryCache.get now s (rlKey ip)).fst = none := by
        simp [InMemoryCache.get, hs]
      rw [hfst] at hge
      simpa using hge
    subst hl0
    have hall : allowInMem 0 ttl now s ip = (false, s) := by
      simp [allowInMem, RateLimiter.allow, inMemoryBackend,
        InMemoryCache.get, hs]
    rw [hall]
    exact ⟨rfl, fun k _ => rfl, Or.inl hs⟩
  · by_cases hlive : now < E
    · have hge' : limit ≤ v := by
        simpa [InMemoryCache.get, hs, hlive] using hge
      rw [allowInMem_live_deny limit ttl now s ip v E hs hlive hge']
      exact ⟨rfl, fun k _ => rfl, Or.inl hs⟩
    · have hl0 : limit = 0 := by
        have hfst : (InMemoryCache.get now s (rlKey ip)).fst = none := by
          simp [InMemoryCache.get, hs, hlive]
        rw [hfst] at hge
        simpa using hge
      subst hl0
      have hall : allowInMem 0 ttl now s ip
          = (false, updateStore s (rlKey ip) none) := by
        simp [allowInMem, RateLimiter.allow, inMemoryBackend,
          InMemoryCache.get, hs, hlive]
      rw [hall]
      exact ⟨rfl, fun k hk => updateStore_other _ _ _ _ hk,
        Or.inr ⟨updateStore_self _ _ _,
          ⟨⟨v, E⟩, rfl, Nat.not_lt.mp hlive⟩⟩⟩

def s5w : Store := updateStore emptyStore (rlKey "b") (some ⟨5, 10⟩)

theorem allow_deny_frame_witness :
    (2 : Nat) ≤ (InMemoryCache.get 3 s5w (rlKey "b")).fst.getD 0
    ∧ (allowInMem 2 9 3 s5w "b").fst = false :=
  ⟨by decide, (allow_deny_frame 2 9 3 s5w "b" (by decide)).1⟩

/-- C10: the derived key `"rate_limit:" ++ identity` is injective over
identities, so for distinct identities `a ≠ b` a call `allow(a)` leaves the
entry under `b`'s key unchanged and cannot change the result of a
subsequent `allow(b)` at any clock reading. -/
theorem identity_isolation (limit ttl now now2 : Nat) (s : Store)
    (a b : String) (hab : a ≠ b) :
    (∀ x y : String, rlKey x = rlKey y → x = y)
    ∧ (allowInMem limit ttl now s a).snd (rlKey b) = s (rlKey b)
    ∧ (allowInMem limit ttl now2 (allowInMem limit ttl now s a).snd b).fst
        = (allowInMem limit ttl now2 s b).fst := by
  have hinj : ∀ x y : String, rlKey x = rlKey y → x = y := by
    intro x y hxy
    exact append_left_cancel_str "rate_limit:" x y hxy
  have hkey : rlKey b ≠ rlKey a := fun hk => hab (hinj b a hk).symm
  have hframe : (allowInMem limit ttl now s a).snd (rlKey b) = s (rlKey b) :=
    allowInMem_frame limit ttl now s a (rlKey b) hkey
  refine ⟨hinj, hframe, ?_⟩
  rw [allowInMem_fst_eval, allowInMem_fst_eval, hframe]

theorem identity_isolation_witness :
    ("a" : String) ≠ "b"
    ∧ (allowInMem 1 5 0 emptyStore "a").snd (rlKey "b")
        = emptyStore (rlKey "b") :=
  ⟨by decide, (identity_isolation 1 5 0 0 emptyStore "a" "b" (by decide)).2.1⟩

theorem allowRun_cons_fst (limit ttl : Nat) (ip : String) (s : Store)
    (t : Nat) (ts : List Nat) :
    (allowRun limit ttl ip s (t :: ts)).fst
      = (allowInMem limit ttl t s ip).fst
        :: (allowRun limit ttl ip (allowInMem limit ttl t s ip).snd ts).fst := rfl

theorem allowRun_saturate (L ttl : Nat) (hL32 : L < u32Mod) (ip : String)
    (E : Nat) :
    ∀ (ts : List Nat) (k : Nat) (s : Store),
      1 ≤ k → k ≤ L → ts.length + k = L + 1 →
      s (rlKey ip) = some ⟨k, E⟩ → (∀ t ∈ ts, t < E) →
      (allowRun L ttl ip s ts).fst
        = List.replicate (L - k) true ++ [false] := by
  intro ts
  induction ts with
  | nil =>
      intro k s hk1 hkL hlen _ _
      simp at hlen
      omega
  | cons t ts ih =>
      intro k s hk1 hkL hlen hs hin
      rcases Nat.lt_or_ge k L with hkL' | hge
      · have hstep := allowInMem_live_incr L ttl t s ip k E hs
          (hin t (by simp)) hk1 hkL' (by omega)
        have hcons : (allowRun L ttl ip s (t :: ts)).fst
            = true :: (allowRun L ttl ip
                (updateStore s (rlKey ip) (some ⟨k + 1, E⟩)) ts).fst := by
          rw [allowRun_cons_fst, hstep]
        have ihr := ih (k + 1) (updateStore s (rlKey ip) (some ⟨k + 1, E⟩))
          (by omega) (by omega) (by simp at hlen ⊢; omega)
          (updateStore_self _ _ _) (fun t' ht' => hin t' (by simp [ht']))
        rw [hcons, ihr]
        have hrep : List.replicate (L - k) true ++ [false]
            = true :: (List.replicate (L - (k + 1)) true ++ [false]) := by
          conv_lhs => rw [show L - k = (L - (k + 1)) + 1 by omega]
          simp [List.replicate_succ]
        rw [hrep]
      · have hk : k = L := by omega
        have hts : ts = [] := by
          simp at hlen
          exact List.length_eq_zero.mp (by omega)
        subst hts
        have hstep := allowInMem_live_deny L ttl t s ip k E hs
          (hin t (by simp)) (by omega)
        rw [allowRun_cons_fst, hstep]
        simp [allowRun, hk]

/-- C1: for `limit = L ≥ 1` (a `u32`) and an identity with no entry in the
store, the first `L` `allow` calls each return true and the `(L+1)`-th call
within the same window (every call instant before the expiry `t0 + ttl`
established by the first call) returns false. -/
theorem fresh_identity_window (L ttl : Nat) (s : Store) (ip : String)
    (t0 : Nat) (ts : List Nat)
    (hL : 1 ≤ L) (hL32 : L < u32Mod)
    (h0 : s (rlKey ip) = none)
    (hlen : ts.length = L)
    (hin : ∀ t ∈ ts, t < t0 + ttl) :
    (allowRun L ttl ip s (t0 :: ts)).fst
      = List.replicate L true ++ [false] := by
  have hstep := allowInMem_absent L ttl t0 s ip h0 (by omega)
  have hcons : (allowRun L ttl ip s (t0 :: ts)).fst
      = true :: (allowRun L ttl ip
          (updateStore s (rlKey ip) (some ⟨1, t0 + ttl⟩)) ts).fst := by
    rw [allowRun_cons_fst, hstep]
  have hrest := allowRun_saturate L ttl hL32 ip (t0 + ttl) ts 1
    (updateStore s (rlKey ip) (some ⟨1, t0 + ttl⟩)) (Nat.le_refl 1) hL
    (by omega) (updateStore_self _ _ _) hin
  rw [hcons, hrest]
  have hrep : List.replicate L true ++ [false]
      = true :: (List.replicate (L - 1) true ++ [false]) := by
    conv_lhs => rw [show L = (L - 1) + 1 by omega]
    simp [List.replicate_succ]
  rw [hrep]

theorem fresh_identity_window_witness :
    (allowRun 2 5 "a" emptyStore [0, 1, 2]).fst
      = List.replicate 2 true ++ [false] :=
  fresh_identity_window 2 5 emptyStore "a" 0 [1, 2] (by decide)
    (by decide) rfl rfl (by decide)

theorem tokenBucket_allowRun_cons_fst (b : TokenBucket) (t n : Nat) :
    (TokenBucket.allowRun b t (n + 1)).fst
      = (b.allow t).fst :: (TokenBucket.allowRun (b.allow t).snd t n).fst := rfl

theorem tokenBucket_run_drain (C period t : Nat) :
    ∀ (n k : Nat) (b : TokenBucket), b.capacity = C → b.refillPeriod = period →
      b.tokens = k → b.lastRefill = t → k ≤ C →
      (TokenBucket.allowRun b t n).fst
        = List.replicate (min n k) true ++ List.replicate (n - k) false := by
  intro n
  induction n with
  | zero =>
      intro k b _ _ _ _ _
      simp [TokenBucket.allowRun]
  | succ n ih =>
      intro k b hC hP hk ht hkC
      have hstep : b.allow t
          = if 0 < k then (true, { b with tokens := k - 1, lastRefill := t })
            else (false, { b with tokens := k, lastRefill := t }) := by
        have e1 : t - b.lastRefill = 0 := by rw [ht, Nat.sub_self]
        have e2 : min b.capacity (b.tokens + 0 * b.capacity / b.refillPeriod)
            = k := by
          rw [Nat.zero_mul, Nat.zero_div, Nat.add_zero, hk, hC]
          exact Nat.min_eq_right hkC
        simp only [TokenBucket.allow, e1, e2]
      rcases Nat.eq_zero_or_pos k with hk0 | hkpos
      · have hstep' : b.allow t = (false, { b with tokens := k, lastRefill := t }) := by
          rw [hstep, hk0]
          simp
        rw [tokenBucket_allowRun_cons_fst, hstep']
        have ihr := ih k { b with tokens := k, lastRefill := t } hC hP rfl rfl hkC
        rw [ihr, hk0]
        simp [List.replicate_succ]
      · obtain ⟨j, rfl⟩ : ∃ j, k = j + 1 := ⟨k - 1, by omega⟩
        have hstep' : b.allow t = (true, { b with tokens := j, lastRefill := t }) := by
          rw [hstep]
          simp
        rw [tokenBucket_allowRun_cons_fst, hstep']
        have ihr := ih j { b with tokens := j, lastRefill := t } hC hP rfl rfl
          (by omega)
        rw [ihr]
        simp [Nat.succ_min_succ, Nat.succ_sub_succ, List.replicate_succ]

/-- C4: for every capacity `C`, a freshly constructed token bucket's first
`C` `allow()` calls return true and the `(C+1)`-th returns false, when no
time elapses between the calls (all calls at one instant `t`). -/
theorem token_bucket_fresh_drain (C period t0 t : Nat) :
    (TokenBucket.allowRun (TokenBucket.new C period t0) t (C + 1)).fst
      = List.replicate C true ++ [false] := by
  have hfull : min C (C + (t - t0) * C / period) = C :=
    Nat.min_eq_left (Nat.le_add_right _ _)
  have hstep : (TokenBucket.new C period t0).allow t
      = if 0 < C then (true, ⟨C, C - 1, t, period⟩)
        else (false, ⟨C, C, t, period⟩) := by
    simp only [TokenBucket.allow, TokenBucket.new, hfull]
  rcases Nat.eq_zero_or_pos C with hC0 | hCpos
  · subst hC0
    rw [tokenBucket_allowRun_cons_fst, hstep]
    simp [TokenBucket.allowRun]
  · have hstep' : (TokenBucket.new C period t0).allow t
        = (true, ⟨C, C - 1, t, period⟩) := by
      rw [hstep, if_pos hCpos]
    rw [tokenBucket_allowRun_cons_fst, hstep']
    have hrest := tokenBucket_run_drain C period t C (C - 1)
      ⟨C, C - 1, t, period⟩ rfl rfl rfl rfl (by omega)
    rw [hrest, Nat.min_eq_right (by omega : C - 1 ≤ C),
      show C - (C - 1) = 1 by omega]
    conv_rhs => rw [show C = (C - 1) + 1 by omega]
    simp [List.replicate_succ]

/-- C6: on the allow path with current count below the limit — a failing
`incr` makes `allow` return false (fail closed); an `incr` returning a new
count of 1 makes `allow` call `set(key, 1, ttl)` (the final backend state
is `set`'s) and return true whatever `set` returned; an `incr` returning a
count greater than 1 makes `allow` return true with `incr`'s state, `set`
uncalled. -/
theorem allow_incr_branches {σ : Type} (B : Backend σ) (limit ttl : Nat)
    (s : σ) (ip : String) (c : Option Nat) (s1 : σ)
    (hget : B.get s (rlKey ip) = (c, s1))
    (hlt : c.getD 0 < limit) :
    (∀ msg s2, B.incr s1 (rlKey ip) 1 = (Except.error msg, s2) →
        RateLimiter.allow B limit ttl s ip = (false, s2))
    ∧ (∀ s2, B.incr s1 (rlKey ip) 1 = (Except.ok 1, s2) →
        RateLimiter.allow B limit ttl s ip
          = (true, (B.set s2 (rlKey ip) 1 ttl).snd))
    ∧ (∀ n s2, B.incr s1 (rlKey ip) 1 = (Except.ok n, s2) → 1 < n →
        RateLimiter.allow B limit ttl s ip = (true, s2)) := by
  refine ⟨?_, ?_, ?_⟩
  · intro msg s2 hincr
    simp [RateLimiter.allow, hget, hlt, hincr]
  · intro s2 hincr
    simp [RateLimiter.allow, hget, hlt, hincr]
  · intro n s2 hincr hn
    have hne : ¬ n = 1 := by omega
    simp [RateLimiter.allow, hget, hlt, hincr, hne]

theorem allow_incr_branches_witness :
    (inMemoryBackend 0).get emptyStore (rlKey "a") = (none, emptyStore)
    ∧ (none : Option Nat).getD 0 < 1
    ∧ (RateLimiter.allow (inMemoryBackend 0) 1 5 emptyStore "a").fst
        = true := by
  refine ⟨rfl, by decide, ?_⟩
  have h := (allow_incr_branches (inMemoryBackend 0) 1 5 emptyStore "a"
    none emptyStore rfl (by decide)).2.1
  have h2 := h (updateStore emptyStore (rlKey "a") (some ⟨1, 0⟩)) rfl
  rw [h2]
